import Mathlib

/-!
Verification of the cc-jukebox audio transcoding pipeline.

The development shallowly embeds the two Python source files:
  - encode_song.py : the DFPWM-style delta encoder with interleaved bit
    packing (encode_dfpwm), the 16-to-8-bit sample reduction (get_sample),
    and the floating-cursor point resampler in main.
  - convert_mp3.py : the 16-to-8-bit reduction in process_file and the
    manifest (catalog) upsert logic in update_manifest.

Machine integers in the Python source are unbounded ints, so they are
modelled as Lean Int directly.  The Python floor division operator is
modelled with Int.fdiv, which has identical semantics.  The floating
cursor of the resampler is modelled with exact rational arithmetic; for
the concrete inputs the claims speak about (ratio 6 starting from 0.0,
and the very first iteration at cursor 0.0) every value taken by the
Python float cursor is an integer far below 2 to the 53, so binary
floating point computes them exactly and the rational model agrees with
the source.
-/

/-- Encoder state of encode_dfpwm (encode_song.py lines 14 to 16):
charge, strength and previous_bit are loop variables of the Python
function, initialised to 0, 0, False. -/
structure DfpwmState where
  charge : Int
  strength : Int
  previous_bit : Bool
deriving DecidableEq, Repr

/-- Initial encoder state (encode_song.py lines 14 to 16). -/
def initState : DfpwmState :=
  { charge := 0, strength := 0, previous_bit := false }

/-- One per-sample state update of encode_dfpwm (encode_song.py lines
22 to 51), returning the updated state and the emitted bit.  Python
left shift by 2 on a nonnegative int equals multiplication by 4 and is
written that way here.  The binding named step is dead code in the
source (line 37) and is kept to stay faithful; it does not feed the
result. -/
def encodeStep (s : DfpwmState) (sample : Int) : DfpwmState × Bool :=
  let bit := decide (sample > s.charge)
  let strength1 := if bit = s.previous_bit then s.strength + 1 else s.strength - 1
  let strength2 := if strength1 < 0 then 0 else strength1
  let strength3 := if strength2 > 63 then 63 else strength2
  let step := strength3 * 4 + (if strength3 < 50 then 1 else 0)
  let change := strength3 * 4 + 2
  let charge1 := if bit then s.charge + change else s.charge - change
  let charge2 := if charge1 > 127 then 127 else charge1
  let charge3 := if charge2 < -128 then -128 else charge2
  ({ charge := charge3, strength := strength3, previous_bit := bit }, bit)

/-- The bit stream emitted by the encoder loop of encode_dfpwm from a
given state: one bit per sample, in input order. -/
def encode_bits (s : DfpwmState) : List Int → List Bool
  | [] => []
  | sample :: rest =>
      let r := encodeStep s sample
      r.2 :: encode_bits r.1 rest

/-- The per-step encoder states reached by encode_dfpwm from a given
state: the state after each sample, in input order. -/
def encode_states (s : DfpwmState) : List Int → List DfpwmState
  | [] => []
  | sample :: rest =>
      let r := encodeStep s sample
      r.1 :: encode_states r.1 rest

/-- Stand-alone model of the bit packing interleaved in encode_dfpwm
(encode_song.py lines 55 to 65): current_byte accumulates bits LSB
first, a full byte is appended after 8 bits, and a nonempty partial
byte is flushed at the end. -/
def packBitsGo (current_byte bit_idx : Nat) : List Bool → List Nat
  | [] => if 0 < bit_idx then [current_byte] else []
  | b :: rest =>
      let current_byte1 := if b then current_byte ||| (1 <<< bit_idx) else current_byte
      let bit_idx1 := bit_idx + 1
      if bit_idx1 = 8 then current_byte1 :: packBitsGo 0 0 rest
      else packBitsGo current_byte1 bit_idx1 rest

/-- Bit packing from the empty buffer, as encode_dfpwm starts it
(encode_song.py lines 19 to 20). -/
def packBits (bs : List Bool) : List Nat :=
  packBitsGo 0 0 bs

/-- The full loop of encode_dfpwm (encode_song.py lines 22 to 65):
per sample, update the encoder state via encodeStep and pack the
emitted bit into the byte buffer; flush a partial final byte. -/
def encodeGo (s : DfpwmState) (current_byte bit_idx : Nat) : List Int → List Nat
  | [] => if 0 < bit_idx then [current_byte] else []
  | sample :: rest =>
      let r := encodeStep s sample
      let current_byte1 := if r.2 then current_byte ||| (1 <<< bit_idx) else current_byte
      let bit_idx1 := bit_idx + 1
      if bit_idx1 = 8 then current_byte1 :: encodeGo r.1 0 0 rest
      else encodeGo r.1 current_byte1 bit_idx1 rest

/-- encode_dfpwm (encode_song.py lines 9 to 67): encodes a list of
8-bit signed PCM samples into the packed DFPWM byte sequence. -/
def encode_dfpwm (pcm_samples : List Int) : List Nat :=
  encodeGo initState 0 0 pcm_samples

/-- Unpacking a byte sequence LSB first: each byte contributes its 8
bits, bit position 0 first.  This is the reading direction fixed by the
comment at encode_song.py lines 53 to 54. -/
def unpack_bits (bytes : List Nat) : List Bool :=
  (bytes.map (fun b => (List.range 8).map b.testBit)).flatten

/-- The 16-bit branch of get_sample (encode_song.py lines 106 to 111)
and the identical reduction in process_file (convert_mp3.py lines 69
to 71): a little-endian signed 16-bit value val is reduced to 8 bits by
the Python expression val // 256, which is floor division, modelled by
Int.fdiv. -/
def get_sample16 (val : Int) : Int :=
  Int.fdiv val 256

/-- The 8-bit branch of get_sample (encode_song.py lines 103 to 105):
an unsigned byte b maps to b - 128. -/
def get_sample8 (b : Nat) : Int :=
  (b : Int) - 128

/-- The resampling loop body of main (encode_song.py lines 131 to
134): while idx < len(samples), emit samples[int(idx)] and advance idx
by ratio.  The float cursor is modelled with exact rationals; int()
truncation on the nonnegative cursor is the floor.  Termination: each
step shrinks the remaining distance to the end by ratio > 0. -/
def resampleGo (samples : List Int) ( ratio : Rat) (hr : 0 < ratio) (idx : Rat) : List Int :=
  if h : idx < (samples.length : Rat) then
    samples.getD (Int.toNat ⌊idx⌋) 0 :: resampleGo samples ratio hr (idx + ratio)
  else []
termination_by Nat.ceil (((samples.length : Rat) - idx) / ratio)
decreasing_by
  have hx : 0 < ((samples.length : Rat) - idx) / ratio := by
    apply div_pos _ hr
    linarith
  have hrw : ((samples.length : Rat) - (idx + ratio)) / ratio
      = ((samples.length : Rat) - idx) / ratio - 1 := by
    field_simp
    ring
  rw [hrw]
  set x : Rat := ((samples.length : Rat) - idx) / ratio with hxdef
  have h1 : 1 ≤ Nat.ceil x := Nat.ceil_pos.mpr hx
  have h2 : Nat.ceil (x - 1) ≤ Nat.ceil x - 1 := by
    apply Nat.ceil_le.mpr
    have hcast : ((Nat.ceil x - 1 : Nat) : Rat) = (Nat.ceil x : Rat) - 1 := by
      push_cast [h1]
      ring
    rw [hcast]
    have := Nat.le_ceil x
    linarith
  omega

/-- The resampling step of main (encode_song.py lines 127 to 135) for
a positive ratio, starting the cursor at 0.0.  The source ratio
framerate / target_rate is always positive; a nonpositive ratio never
occurs and is mapped to the empty list. -/
def resample (samples : List Int) ( ratio : Rat) : List Int :=
  if hr : 0 < ratio then resampleGo samples ratio hr 0 else []

/-- The resampling branch of main (encode_song.py lines 127 to 135):
resampling runs only when the target rate differs from the source
framerate, with ratio = framerate / target_rate. -/
def mainResample (framerate target_rate : Nat) (samples : List Int) : List Int :=
  if target_rate ≠ framerate then
    resample samples ((framerate : Rat) / (target_rate : Rat))
  else samples

/-- A catalog (manifest) entry as written by update_manifest
(convert_mp3.py lines 118 to 121): a title and a file path. -/
structure SongEntry where
  title : String
  file : String
deriving DecidableEq, Repr

/-- The manifest data update_manifest operates on: the songs list it
scans and appends to, plus every other top-level key of the JSON
object, which the function never reads or writes and which is carried
through json.load and json.dump untouched (modelled parametrically). -/
structure Manifest (A : Type) where
  songs : List SongEntry
  other : A
deriving DecidableEq, Repr

/-- Path normalisation of update_manifest (convert_mp3.py line 96):
backslashes are replaced by forward slashes. -/
def normalizePath (p : String) : String :=
  p.replace "\x5c" "/"

/-- The pure core of update_manifest (convert_mp3.py lines 110 to
127), after the file path has been normalised: scan songs for an entry
whose file equals file_entry; if none is found, append the new entry
and persist; otherwise leave the data untouched and do not write.  The
Bool records whether the manifest file was (re)written. -/
def update_manifest {A : Type} (data : Manifest A) (title file_entry : String) :
    Manifest A × Bool :=
  let exists0 := data.songs.any (fun song => song.file = file_entry)
  if exists0 then (data, false)
  else ({ data with songs := data.songs ++ [{ title := title, file := file_entry }] }, true)

/-- update_manifest including the path normalisation of convert_mp3.py
line 96: the stored file entry is the output path with backslashes
replaced by forward slashes. -/
def upsert {A : Type} (data : Manifest A) (title output_path : String) :
    Manifest A × Bool :=
  update_manifest data title (normalizePath output_path)

/-- Empty catalog used as a concrete witness input. -/
def emptyManifest : Manifest Unit :=
  { songs := [], other := () }

/-- One-entry catalog with a non-songs component, used as a concrete
witness input. -/
def demoManifest : Manifest Nat :=
  { songs := [{ title := "x", file := "y.dfpwm" }], other := 42 }

/-- The per-sample step exactly as the specification words it
(spec section 4.3), with the clamps written via min and max: bit from
the comparison, strength plus or minus one clamped to [0, 63], change
equal to strength shifted left by two plus two, charge moved by change
and clamped to [-128, 127], previous bit replaced, bit emitted.  Kept
separate from encodeStep so the code can be compared against the
specification text. -/
def specStep (s : DfpwmState) (sample : Int) : DfpwmState × Bool :=
  let bit := decide (sample > s.charge)
  let strength :=
    min 63 (max 0 (if bit = s.previous_bit then s.strength + 1 else s.strength - 1))
  let change := strength * 4 + 2
  let charge := max (-128) (min 127 (if bit then s.charge + change else s.charge - change))
  ({ charge := charge, strength := strength, previous_bit := bit }, bit)

/-- The bit stream of the specification recurrence, one bit per sample
in input order. -/
def spec_bits (s : DfpwmState) : List Int → List Bool
  | [] => []
  | sample :: rest =>
      let r := specStep s sample
      r.2 :: spec_bits r.1 rest

/-- encodeStep with the dead binding of encode_song.py line 37
removed: only the applied change formula remains. -/
def encodeStepPruned (s : DfpwmState) (sample : Int) : DfpwmState × Bool :=
  let bit := decide (sample > s.charge)
  let strength1 := if bit = s.previous_bit then s.strength + 1 else s.strength - 1
  let strength2 := if strength1 < 0 then 0 else strength1
  let strength3 := if strength2 > 63 then 63 else strength2
  let change := strength3 * 4 + 2
  let charge1 := if bit then s.charge + change else s.charge - change
  let charge2 := if charge1 > 127 then 127 else charge1
  let charge3 := if charge2 < -128 then -128 else charge2
  ({ charge := charge3, strength := strength3, previous_bit := bit }, bit)

/-- The bit stream of the pruned encoder. -/
def encode_bits_pruned (s : DfpwmState) : List Int → List Bool
  | [] => []
  | sample :: rest =>
      let r := encodeStepPruned s sample
      r.2 :: encode_bits_pruned r.1 rest

/-- The full encode loop with the dead binding removed. -/
def encodeGoPruned (s : DfpwmState) (current_byte bit_idx : Nat) : List Int → List Nat
  | [] => if 0 < bit_idx then [current_byte] else []
  | sample :: rest =>
      let r := encodeStepPruned s sample
      let current_byte1 := if r.2 then current_byte ||| (1 <<< bit_idx) else current_byte
      let bit_idx1 := bit_idx + 1
      if bit_idx1 = 8 then current_byte1 :: encodeGoPruned r.1 0 0 rest
      else encodeGoPruned r.1 current_byte1 bit_idx1 rest

/-- encode_dfpwm with the dead binding removed. -/
def encode_dfpwm_pruned (pcm_samples : List Int) : List Nat :=
  encodeGoPruned initState 0 0 pcm_samples

/-- The clamp invariant of the encoder state: charge in [-128, 127]
and strength in [0, 63]. -/
def stateInv (s : DfpwmState) : Prop :=
  -128 ≤ s.charge ∧ s.charge ≤ 127 ∧ 0 ≤ s.strength ∧ s.strength ≤ 63

instance (s : DfpwmState) : Decidable (stateInv s) := by
  unfold stateInv
  infer_instance

/-- The dead binding in encodeStep is definitionally irrelevant: the
pruned step computes the same result. -/
lemma encodeStep_eq_pruned (s : DfpwmState) (x : Int) :
    encodeStep s x = encodeStepPruned s x := rfl

lemma encode_bits_eq_pruned (l : List Int) :
    ∀ s : DfpwmState, encode_bits s l = encode_bits_pruned s l := by
  induction l with
  | nil => intro s; rfl
  | cons x xs ih =>
      intro s
      simp only [encode_bits, encode_bits_pruned, ← encodeStep_eq_pruned, ih]

lemma encodeGo_eq_pruned (l : List Int) :
    ∀ (s : DfpwmState) (cur bi : Nat),
      encodeGo s cur bi l = encodeGoPruned s cur bi l := by
  induction l with
  | nil => intro s cur bi; rfl
  | cons x xs ih =>
      intro s cur bi
      simp only [encodeGo, encodeGoPruned, ← encodeStep_eq_pruned, ih]

/-- The code step equals the step as the specification words it. -/
lemma encodeStep_eq_specStep (s : DfpwmState) (x : Int) :
    encodeStep s x = specStep s x := by
  simp only [encodeStep, specStep, Prod.mk.injEq, DfpwmState.mk.injEq,
    eq_self_iff_true, and_true]
  constructor <;> split_ifs <;> omega

lemma encode_bits_eq_spec (l : List Int) :
    ∀ s : DfpwmState, encode_bits s l = spec_bits s l := by
  induction l with
  | nil => intro s; rfl
  | cons x xs ih =>
      intro s
      simp only [encode_bits, spec_bits, encodeStep_eq_specStep, ih]

lemma encode_bits_length (l : List Int) :
    ∀ s : DfpwmState, (encode_bits s l).length = l.length := by
  induction l with
  | nil => intro s; rfl
  | cons x xs ih => intro s; simp only [encode_bits, List.length_cons, ih]

/-- Any single encoder step lands in the clamped domain, whatever the
incoming state and sample are. -/
lemma encodeStep_inv (s : DfpwmState) (x : Int) : stateInv (encodeStep s x).1 := by
  simp only [encodeStep, stateInv]
  refine ⟨?_, ?_, ?_, ?_⟩ <;> dsimp only <;> split_ifs <;> omega

lemma mem_encode_states_inv (l : List Int) :
    ∀ s t : DfpwmState, t ∈ encode_states s l → stateInv t := by
  induction l with
  | nil => intro s t ht; simp [encode_states] at ht
  | cons x xs ih =>
      intro s t ht
      simp only [encode_states, List.mem_cons] at ht
      rcases ht with ht | ht
      · rw [ht]; exact encodeStep_inv s x
      · exact ih _ _ ht

/-- The interleaved encode loop is the bit packer applied to the bit
stream. -/
lemma encodeGo_eq_packBitsGo (l : List Int) :
    ∀ (s : DfpwmState) (cur bi : Nat),
      encodeGo s cur bi l = packBitsGo cur bi (encode_bits s l) := by
  induction l with
  | nil => intro s cur bi; rfl
  | cons x xs ih =>
      intro s cur bi
      simp only [encodeGo, encode_bits, packBitsGo, ih]

lemma encode_dfpwm_eq_packBits (l : List Int) :
    encode_dfpwm l = packBits (encode_bits initState l) :=
  encodeGo_eq_packBitsGo l initState 0 0

lemma packBitsGo_length (l : List Bool) :
    ∀ cur bi : Nat, bi < 8 →
      (packBitsGo cur bi l).length = (bi + l.length + 7) / 8 := by
  induction l with
  | nil =>
      intro cur bi hbi
      simp only [packBitsGo, List.length_nil]
      split_ifs <;> simp <;> omega
  | cons b bs ih =>
      intro cur bi hbi
      simp only [packBitsGo, List.length_cons]
      generalize (if b = true then cur ||| 1 <<< bi else cur) = cb
      split_ifs with h
      · simp only [List.length_cons, ih 0 0 (by omega)]
        omega
      · rw [ih cb (bi + 1) (by omega)]
        omega

lemma encode_dfpwm_length (l : List Int) :
    (encode_dfpwm l).length = (l.length + 7) / 8 := by
  rw [encode_dfpwm_eq_packBits, packBits, packBitsGo_length _ _ _ (by omega),
    encode_bits_length]
  omega

/-- The low k bits of a byte buffer, LSB first. -/
def lowBits (cur k : Nat) : List Bool :=
  (List.range k).map cur.testBit

lemma unpack_bits_nil : unpack_bits [] = [] := rfl

lemma unpack_bits_cons (b : Nat) (rest : List Nat) :
    unpack_bits (b :: rest) = (List.range 8).map b.testBit ++ unpack_bits rest := by
  simp [unpack_bits]

/-- Bits at or above the buffer bound are clear, so the high region of
a partially filled buffer unpacks to padding zeros. -/
lemma lowBits_add_replicate (cur k : Nat) (hcur : cur < 2 ^ k) :
    ∀ n : Nat, lowBits cur (k + n) = lowBits cur k ++ List.replicate n false := by
  intro n
  induction n with
  | zero => simp
  | succ m ih =>
      have hbit : cur.testBit (k + m) = false := by
        apply Nat.testBit_lt_two_pow
        calc cur < 2 ^ k := hcur
          _ ≤ 2 ^ (k + m) := Nat.pow_le_pow_right (by omega) (by omega)
      rw [show k + (m + 1) = (k + m) + 1 by omega]
      rw [lowBits, List.range_succ, List.map_append, ← lowBits, ih]
      simp [hbit, List.replicate_succ']

/-- Setting the bit at the write cursor extends the low-bit prefix by
a one. -/
lemma lowBits_or_pow (cur k : Nat) (hcur : cur < 2 ^ k) :
    lowBits (cur ||| 1 <<< k) (k + 1) = lowBits cur k ++ [true] := by
  rw [lowBits, List.range_succ, List.map_append, ← lowBits]
  congr 1
  · apply List.map_congr_left
    intro i hi
    rw [List.mem_range] at hi
    rw [Nat.one_shiftLeft, Nat.testBit_or, Nat.testBit_two_pow]
    simp [Nat.ne_of_gt hi]
  · simp only [List.map_cons, List.map_nil]
    rw [Nat.one_shiftLeft, Nat.testBit_or, Nat.testBit_two_pow]
    simp [Nat.testBit_lt_two_pow hcur]

/-- Skipping the bit at the write cursor extends the low-bit prefix by
a zero. -/
lemma lowBits_skip (cur k : Nat) (hcur : cur < 2 ^ k) :
    lowBits cur (k + 1) = lowBits cur k ++ [false] := by
  rw [lowBits, List.range_succ, List.map_append, ← lowBits]
  simp [Nat.testBit_lt_two_pow hcur]

/-- Writing one bit into the buffer extends the low-bit prefix by
exactly the written bit. -/
lemma lowBits_write (cur k : Nat) (b : Bool) (hcur : cur < 2 ^ k) :
    lowBits (if b = true then cur ||| 1 <<< k else cur) (k + 1)
      = lowBits cur k ++ [b] := by
  cases b with
  | false =>
      rw [if_neg (by simp)]
      exact lowBits_skip cur k hcur
  | true =>
      rw [if_pos rfl]
      exact lowBits_or_pow cur k hcur

/-- A freshly written buffer stays below the bound for the advanced
cursor. -/
lemma write_lt (cur k : Nat) (b : Bool) (hcur : cur < 2 ^ k) :
    (if b = true then cur ||| 1 <<< k else cur) < 2 ^ (k + 1) := by
  have h2 : 2 ^ k < 2 ^ (k + 1) := by
    have hpos : 0 < 2 ^ k := Nat.pos_pow_of_pos k (by omega)
    calc 2 ^ k < 2 ^ k + 2 ^ k := by omega
      _ = 2 ^ (k + 1) := by rw [Nat.pow_succ]; omega
  split_ifs
  · exact Nat.or_lt_two_pow (by omega) (by rw [Nat.one_shiftLeft]; omega)
  · omega

/-- Unpacking what the packer produced from buffer state (cur, bi)
yields the buffered low bits, then the remaining input bits, then zero
padding up to the final byte boundary. -/
lemma unpack_packBitsGo (l : List Bool) :
    ∀ cur bi : Nat, bi < 8 → cur < 2 ^ bi →
      unpack_bits (packBitsGo cur bi l) =
        if bi = 0 ∧ l = [] then []
        else lowBits cur bi ++ l
          ++ List.replicate ((8 - (bi + l.length) % 8) % 8) false := by
  induction l with
  | nil =>
      intro cur bi hbi hcur
      rcases Nat.eq_zero_or_pos bi with h0 | h0
      · subst h0
        simp [packBitsGo, unpack_bits]
      · have hpack : packBitsGo cur bi [] = [cur] := by
          simp [packBitsGo, h0]
        rw [hpack, if_neg (fun hh => absurd hh.1 (by omega))]
        simp only [unpack_bits_cons, unpack_bits_nil, List.append_nil,
          List.length_nil]
        have h8 : (List.range 8).map cur.testBit = lowBits cur (bi + (8 - bi)) := by
          have heq : bi + (8 - bi) = 8 := by omega
          rw [heq]; rfl
        rw [h8, lowBits_add_replicate cur bi hcur]
        have hcnt : (8 - (bi + 0) % 8) % 8 = 8 - bi := by omega
        rw [hcnt]
  | cons b bs ih =>
      intro cur bi hbi hcur
      simp only [packBitsGo, List.length_cons]
      have hsplit : ¬(bi = 0 ∧ b :: bs = []) := by simp
      rw [if_neg hsplit]
      have hcb_lt : (if b = true then cur ||| 1 <<< bi else cur) < 2 ^ (bi + 1) :=
        write_lt cur bi b hcur
      have hcb_low : lowBits (if b = true then cur ||| 1 <<< bi else cur) (bi + 1)
          = lowBits cur bi ++ [b] := lowBits_write cur bi b hcur
      generalize hcb : (if b = true then cur ||| 1 <<< bi else cur) = cb at hcb_lt hcb_low
      by_cases h : bi + 1 = 8
      · -- the byte fills: bi = 7, flush and continue on the empty buffer
        rw [if_pos h, unpack_bits_cons]
        have hb7 : bi = 7 := by omega
        subst hb7
        have hrange : (List.range 8).map cb.testBit
            = lowBits cur 7 ++ [b] := hcb_low
        rw [hrange, ih 0 0 (by omega) (by omega)]
        by_cases hbs : bs = []
        · subst hbs
          simp
        · rw [if_neg (by simp [hbs])]
          have hpad : (8 - (0 + bs.length) % 8) % 8
              = (8 - (7 + (bs.length + 1)) % 8) % 8 := by omega
          rw [← hpad]
          simp [lowBits]
      · -- the byte is still partial: keep packing into the buffer
        rw [if_neg h, ih cb (bi + 1) (by omega) hcb_lt]
        rw [if_neg (by omega)]
        rw [hcb_low]
        have hpad : (8 - (bi + 1 + bs.length) % 8) % 8
            = (8 - (bi + (bs.length + 1)) % 8) % 8 := by omega
        rw [hpad]
        simp

/-- Round-trip for the packer started on an empty buffer: the packed
bytes unpack to the input bits followed by zero padding that fills the
last byte. -/
lemma unpack_packBits (l : List Bool) :
    unpack_bits (packBits l) =
      l ++ List.replicate ((8 - l.length % 8) % 8) false := by
  rw [packBits, unpack_packBitsGo l 0 0 (by omega) (by omega)]
  by_cases hl : l = []
  · subst hl
    simp
  · rw [if_neg (by simp [hl])]
    simp [lowBits]

lemma packBits_length (l : List Bool) :
    (packBits l).length = (l.length + 7) / 8 := by
  rw [packBits, packBitsGo_length l 0 0 (by omega)]
  omega

/-- Stepping a positive ceiling down by one. -/
lemma ceil_pred_add_one (x : Rat) (hx : 0 < x) :
    Nat.ceil (x - 1) + 1 = Nat.ceil x := by
  rcases le_or_lt 1 x with h | h
  · have h0 : (0 : Rat) ≤ x - 1 := by linarith
    have hstep := Nat.ceil_add_one h0
    have hxx : x - 1 + 1 = x := by ring
    rw [hxx] at hstep
    omega
  · have h1 : Nat.ceil (x - 1) = 0 := Nat.ceil_eq_zero.mpr (by linarith)
    have h2 : Nat.ceil x ≤ 1 := Nat.ceil_le.mpr (by push_cast; linarith)
    have h3 : 0 < Nat.ceil x := Nat.ceil_pos.mpr hx
    omega

/-- The loop of the resampler emits exactly the ceiling of the
remaining distance divided by the ratio. -/
lemma resampleGo_length (samples : List Int) ( ratio : Rat) (hr : 0 < ratio)
    (idx : Rat) :
    (resampleGo samples ratio hr idx).length
      = Nat.ceil (((samples.length : Rat) - idx) / ratio) := by
  rw [resampleGo]
  split_ifs with h
  · rw [List.length_cons,
      resampleGo_length samples ratio hr (idx + ratio)]
    have hrw : ((samples.length : Rat) - (idx + ratio)) / ratio
        = ((samples.length : Rat) - idx) / ratio - 1 := by
      field_simp
      ring
    rw [hrw]
    exact ceil_pred_add_one _ (div_pos (by linarith) hr)
  · rw [List.length_nil]
    symm
    rw [Nat.ceil_eq_zero]
    exact div_nonpos_iff.mpr (Or.inr ⟨by linarith, le_of_lt hr⟩)
termination_by Nat.ceil (((samples.length : Rat) - idx) / ratio)
decreasing_by
  have hx : 0 < ((samples.length : Rat) - idx) / ratio := by
    apply div_pos _ hr
    linarith
  have hrw : ((samples.length : Rat) - (idx + ratio)) / ratio
      = ((samples.length : Rat) - idx) / ratio - 1 := by
    field_simp
    ring
  rw [hrw]
  have := ceil_pred_add_one (((samples.length : Rat) - idx) / ratio) hx
  omega

/-- The resampler output length is the ceiling of input length over
ratio. -/
lemma resample_length (samples : List Int) ( ratio : Rat) (hr : 0 < ratio) :
    (resample samples ratio).length
      = Nat.ceil ((samples.length : Rat) / ratio) := by
  rw [resample, dif_pos hr, resampleGo_length]
  norm_num

/-- Python floor division by 256 agrees with Euclidean division by
256. -/
lemma get_sample16_eq_ediv (v : Int) : get_sample16 v = v / 256 := by
  rw [get_sample16]
  exact Int.fdiv_eq_ediv v (by norm_num)

/-- Toward-zero division of a nonpositive value by 256, written
through Euclidean division. -/
lemma tdiv_256_of_neg (v : Int) (hv : v < 0) :
    Int.tdiv v 256 = -((-v) / 256) := by
  have h1 : Int.tdiv (-(-v)) 256 = -(Int.tdiv (-v) 256) := Int.neg_tdiv (-v) 256
  have h2 : -(-v) = v := by ring
  rw [h2] at h1
  rw [h1, Int.tdiv_eq_ediv (by omega) (by omega)]

/-- C1: for every sample sequence, the encoder processes samples in
order from the initial state (charge 0, strength 0, previous bit
false) and performs per sample exactly the specified step: bit from
the comparison with charge, strength moved by one and clamped to
[0, 63], change equal to strength times four plus two, charge moved by
change and clamped to [-128, 127], previous bit replaced, and the bit
emitted; one bit per sample, in input order, and the emitted bits are
what encode_dfpwm packs. -/
theorem claim_C1 (samples : List Int) :
    encode_bits initState samples = spec_bits initState samples ∧
    (encode_bits initState samples).length = samples.length ∧
    encode_dfpwm samples = packBits (encode_bits initState samples) :=
  ⟨encode_bits_eq_spec samples initState, encode_bits_length samples initState,
    encode_dfpwm_eq_packBits samples⟩

/-- C2: after every per-sample update performed by the encoder, charge
lies in [-128, 127] and strength lies in [0, 63]. -/
theorem claim_C2 (samples : List Int) (t : DfpwmState)
    (ht : t ∈ encode_states initState samples) :
    (-128 ≤ t.charge ∧ t.charge ≤ 127) ∧ (0 ≤ t.strength ∧ t.strength ≤ 63) := by
  have hi := mem_encode_states_inv samples initState t ht
  exact ⟨⟨hi.1, hi.2.1⟩, hi.2.2.1, hi.2.2.2⟩

/-- Witness for C2 at the concrete input [100]. -/
theorem claim_C2_witness :
    (⟨2, 0, true⟩ : DfpwmState) ∈ encode_states initState [100] ∧
    ((-128 ≤ (⟨2, 0, true⟩ : DfpwmState).charge ∧
        (⟨2, 0, true⟩ : DfpwmState).charge ≤ 127) ∧
      (0 ≤ (⟨2, 0, true⟩ : DfpwmState).strength ∧
        (⟨2, 0, true⟩ : DfpwmState).strength ≤ 63)) :=
  ⟨by decide, claim_C2 [100] ⟨2, 0, true⟩ (by decide)⟩

/-- C3: the packer emits exactly ceil(N/8) bytes for the N bits the
encoder emits (N equals the sample count), unpacking those bytes LSB
first reproduces the N bits, and the unused high-order positions of a
final partial byte are zero. -/
theorem claim_C3 (samples : List Int) :
    (encode_dfpwm samples).length = (samples.length + 7) / 8 ∧
    unpack_bits (encode_dfpwm samples)
      = encode_bits initState samples
        ++ List.replicate ((8 - samples.length % 8) % 8) false := by
  refine ⟨encode_dfpwm_length samples, ?_⟩
  rw [encode_dfpwm_eq_packBits, unpack_packBits, encode_bits_length]

/-- C4 counterexample: the code maps the 16-bit value -1 to -1 (floor
division), while truncating division toward zero maps it to 0, so the
claim that get_sample truncates toward zero fails at v = -1. -/
theorem claim_C4_counterexample :
    get_sample16 (-1) = -1 ∧ Int.tdiv (-1) 256 = 0 ∧
    get_sample16 (-1) ≠ Int.tdiv (-1) 256 := by decide

/-- C4 amended: get_sample maps v to v // 256 with floor division
(rounding toward negative infinity); for negative v not divisible by
256 this is one less than the toward-zero quotient, and for
nonnegative w the two divisions agree. -/
theorem claim_C4_amended (v : Int) (hneg : v < 0) (hnd : ¬(256 : Int) ∣ v) :
    get_sample16 v = Int.tdiv v 256 - 1 ∧
    ∀ w : Int, 0 ≤ w → get_sample16 w = Int.tdiv w 256 := by
  constructor
  · rw [get_sample16_eq_ediv, tdiv_256_of_neg v hneg]
    omega
  · intro w hw
    rw [get_sample16_eq_ediv, Int.tdiv_eq_ediv hw (by norm_num)]

/-- Witness for C4 amended at the concrete input v = -1. -/
theorem claim_C4_amended_witness :
    ((-1 : Int) < 0 ∧ ¬(256 : Int) ∣ (-1)) ∧
    (get_sample16 (-1) = Int.tdiv (-1) 256 - 1 ∧
      ∀ w : Int, 0 ≤ w → get_sample16 w = Int.tdiv w 256) :=
  ⟨⟨by decide, by decide⟩, claim_C4_amended (-1) (by decide) (by decide)⟩

/-- C5: the dead binding computed inside encode_dfpwm never influences
the output; with it removed the encoder emits the same bit sequence
and the same bytes. -/
theorem claim_C5 (samples : List Int) :
    encode_dfpwm samples = encode_dfpwm_pruned samples ∧
    encode_bits initState samples = encode_bits_pruned initState samples :=
  ⟨encodeGo_eq_pruned samples initState 0 0, encode_bits_eq_pruned samples initState⟩

/-- C6: a one second 48000 Hz all-zero input (48000 zero samples),
point-resampled to 8000 Hz by the floating-cursor loop and then
encoded and packed, yields exactly 1000 bytes. -/
theorem claim_C6 :
    (encode_dfpwm (mainResample 48000 8000 (List.replicate 48000 (0 : Int)))).length
      = 1000 := by
  have hr : (0 : Rat) < (48000 : Rat) / (8000 : Rat) := by norm_num
  have hlen : (mainResample 48000 8000 (List.replicate 48000 (0 : Int))).length
      = 8000 := by
    rw [mainResample, if_pos (by norm_num : (8000 : Nat) ≠ 48000)]
    rw [resample_length _ _ (by push_cast; norm_num)]
    rw [List.length_replicate]
    have hq : ((48000 : Nat) : Rat) / (((48000 : Nat) : Rat) / ((8000 : Nat) : Rat))
        = ((8000 : Nat) : Rat) := by norm_num
    rw [hq, Nat.ceil_natCast]
  rw [encode_dfpwm_length, hlen]

/-- C7: starting from a catalog with no entry whose file equals the
normalized path, upserting twice leaves exactly one matching entry:
the first call appends the new entry at the end (preserving order) and
persists, the second call is a no-op that does not write. -/
theorem claim_C7 {A : Type} (data : Manifest A) (title f : String)
    (h : ∀ s ∈ data.songs, s.file ≠ normalizePath f) :
    (upsert data title f).1.songs
        = data.songs ++ [{ title := title, file := normalizePath f }] ∧
    (upsert data title f).2 = true ∧
    upsert (upsert data title f).1 title f = ((upsert data title f).1, false) ∧
    (upsert (upsert data title f).1 title f).1.songs.countP
        (fun s => s.file = normalizePath f) = 1 := by
  have hany : (data.songs.any fun song => song.file = normalizePath f) = false := by
    rw [List.any_eq_false]
    intro s hs
    simpa using h s hs
  have h1 : upsert data title f
      = ({ data with songs := data.songs
          ++ [{ title := title, file := normalizePath f }] }, true) := by
    simp only [upsert, update_manifest, hany]
    simp
  have h2 : upsert (upsert data title f).1 title f
      = ((upsert data title f).1, false) := by
    rw [h1]
    simp only [upsert, update_manifest]
    simp
  refine ⟨by rw [h1], by rw [h1], h2, ?_⟩
  rw [h2, h1]
  dsimp only
  rw [List.countP_append]
  have hz : data.songs.countP (fun s => s.file = normalizePath f) = 0 := by
    rw [List.countP_eq_zero]
    intro s hs
    simpa using h s hs
  rw [hz]
  simp

/-- Witness for C7 on the empty catalog. -/
theorem claim_C7_witness :
    (∀ s ∈ emptyManifest.songs, s.file ≠ normalizePath "a.dfpwm") ∧
    ((upsert emptyManifest "t" "a.dfpwm").1.songs
        = emptyManifest.songs
          ++ [{ title := "t", file := normalizePath "a.dfpwm" }] ∧
      (upsert emptyManifest "t" "a.dfpwm").2 = true ∧
      upsert (upsert emptyManifest "t" "a.dfpwm").1 "t" "a.dfpwm"
        = ((upsert emptyManifest "t" "a.dfpwm").1, false) ∧
      (upsert (upsert emptyManifest "t" "a.dfpwm").1 "t" "a.dfpwm").1.songs.countP
          (fun s => s.file = normalizePath "a.dfpwm") = 1) :=
  ⟨by decide, claim_C7 emptyManifest "t" "a.dfpwm" (by decide)⟩

/-- C8: encode_dfpwm is total over arbitrary integer lists: without
any range precondition on the samples, the bit stream has one bit per
sample, the byte output has the expected length, and every reached
encoder state satisfies the clamp bounds. -/
theorem claim_C8 (samples : List Int) (t : DfpwmState)
    (ht : t ∈ encode_states initState samples) :
    (encode_bits initState samples).length = samples.length ∧
    (encode_dfpwm samples).length = (samples.length + 7) / 8 ∧
    -128 ≤ t.charge ∧ t.charge ≤ 127 ∧ 0 ≤ t.strength ∧ t.strength ≤ 63 := by
  have hi := mem_encode_states_inv samples initState t ht
  exact ⟨encode_bits_length samples initState, encode_dfpwm_length samples,
    hi.1, hi.2.1, hi.2.2.1, hi.2.2.2⟩

/-- Witness for C8 on samples far outside the 8-bit range. -/
theorem claim_C8_witness :
    (⟨2, 0, true⟩ : DfpwmState)
        ∈ encode_states initState [1000000, -1000000] ∧
    ((encode_bits initState [1000000, -1000000]).length
        = ([1000000, -1000000] : List Int).length ∧
      (encode_dfpwm [1000000, -1000000]).length
        = (([1000000, -1000000] : List Int).length + 7) / 8 ∧
      -128 ≤ (⟨2, 0, true⟩ : DfpwmState).charge ∧
      (⟨2, 0, true⟩ : DfpwmState).charge ≤ 127 ∧
      0 ≤ (⟨2, 0, true⟩ : DfpwmState).strength ∧
      (⟨2, 0, true⟩ : DfpwmState).strength ≤ 63) :=
  ⟨by decide, claim_C8 [1000000, -1000000] ⟨2, 0, true⟩ (by decide)⟩

/-- C9: when update_manifest appends (no matching file found), the
persisted manifest is the loaded manifest with the single new entry
appended at the end of songs; all pre-existing entries and every other
top-level component are unchanged. -/
theorem claim_C9 {A : Type} (data : Manifest A) (title f_entry : String)
    (h : ∀ s ∈ data.songs, s.file ≠ f_entry) :
    (update_manifest data title f_entry).1.songs
        = data.songs ++ [{ title := title, file := f_entry }] ∧
    (update_manifest data title f_entry).1.other = data.other ∧
    (update_manifest data title f_entry).2 = true := by
  have hany : (data.songs.any fun song => song.file = f_entry) = false := by
    rw [List.any_eq_false]
    intro s hs
    simpa using h s hs
  have hupd : update_manifest data title f_entry
      = ({ data with songs := data.songs
          ++ [{ title := title, file := f_entry }] }, true) := by
    simp only [update_manifest, hany]
    simp
  rw [hupd]
  exact ⟨rfl, rfl, rfl⟩

/-- Witness for C9 on a one-entry catalog with a distinct new file. -/
theorem claim_C9_witness :
    (∀ s ∈ demoManifest.songs, s.file ≠ "z.dfpwm") ∧
    ((update_manifest demoManifest "t2" "z.dfpwm").1.songs
        = demoManifest.songs ++ [{ title := "t2", file := "z.dfpwm" }] ∧
      (update_manifest demoManifest "t2" "z.dfpwm").1.other = demoManifest.other ∧
      (update_manifest demoManifest "t2" "z.dfpwm").2 = true) :=
  ⟨by decide, claim_C9 demoManifest "t2" "z.dfpwm" (by decide)⟩

/-- C10: when the target rate differs from the source rate and the
input is non-empty, the resampler output is non-empty and its first
element is the first input sample, because the cursor starts at 0.0
and the first iteration emits the input at index 0. -/
theorem claim_C10 (framerate target_rate : Nat) (samples : List Int)
    (hdiff : target_rate ≠ framerate) (hf : 0 < framerate) (ht : 0 < target_rate)
    (hne : samples ≠ []) :
    mainResample framerate target_rate samples ≠ [] ∧
    (mainResample framerate target_rate samples).head? = samples.head? := by
  have hr : (0 : Rat) < (framerate : Rat) / (target_rate : Rat) := by
    apply div_pos
    · exact_mod_cast hf
    · exact_mod_cast ht
  cases samples with
  | nil => exact absurd rfl hne
  | cons x xs =>
      have hlen : (0 : Rat) < (((x :: xs).length : Nat) : Rat) := by
        have h0 : 0 < (x :: xs).length := by simp
        exact_mod_cast h0
      rw [mainResample, if_pos hdiff, resample, dif_pos hr, resampleGo,
        dif_pos hlen]
      constructor
      · simp
      · have hfloor : Int.toNat ⌊(0 : Rat)⌋ = 0 := by simp
        rw [hfloor]
        simp

/-- Witness for C10 at 48000 to 8000 on the one-sample input [7]. -/
theorem claim_C10_witness :
    ((8000 : Nat) ≠ 48000 ∧ 0 < (48000 : Nat) ∧ 0 < (8000 : Nat) ∧
      ([7] : List Int) ≠ []) ∧
    (mainResample 48000 8000 [7] ≠ [] ∧
      (mainResample 48000 8000 [7]).head? = ([7] : List Int).head?) :=
  ⟨⟨by decide, by decide, by decide, by decide⟩,
    claim_C10 48000 8000 [7] (by decide) (by decide) (by decide) (by decide)⟩
